import Mathlib

set_option maxHeartbeats 1000000

/-
Verification of the schema-compiler core of webappbot (src/webapp.ts).

JavaScript objects are modelled as insertion-ordered association lists with
string keys (`Obj`).  `Obj.set` mirrors JS property assignment (an existing
key keeps its position, a new key is appended), `Obj.erase` mirrors `delete`,
`Obj.get` mirrors property read (`none` = `undefined`).  Real JS objects never
hold a duplicate key; theorems that need this state it as a `Nodup` hypothesis
on the key list.  `for (... in obj)` enumerates keys in insertion order, which
is the list order here (the source relies on insertion order itself, and none
of its keys are JS integer-like keys, which would be reordered).

Spreadsheet cell values are strings, numbers or booleans (`Cell`); JS numbers
are modelled as exact rationals, with the two places where double rounding of
a numeric literal is observable handled explicitly at the literal
(`jsMaxUint64Literal`, `float32Threshold`).

Code that throws a `TypeError` at runtime is embedded in `Except String`.
-/

abbrev Obj (V : Type) : Type := List (String × V)

namespace Obj

def get {V : Type} (o : Obj V) (k : String) : Option V :=
  match o with
  | [] => none
  | p :: rest => if p.1 = k then some p.2 else get rest k

/-- JS property assignment: replace in place if the key exists, else append. -/
def set {V : Type} (o : Obj V) (k : String) (v : V) : Obj V :=
  match o with
  | [] => [(k, v)]
  | p :: rest => if p.1 = k then (k, v) :: rest else p :: set rest k v

/-- JS `delete obj[k]`: drop the entry with key `k` (a filter, which on the
duplicate-free key lists of real JS objects removes the single entry). -/
def erase {V : Type} (o : Obj V) (k : String) : Obj V :=
  match o with
  | [] => []
  | p :: rest => if p.1 = k then erase rest k else p :: erase rest k

def keys {V : Type} (o : Obj V) : List String := o.map Prod.fst

def values {V : Type} (o : Obj V) : List V := o.map Prod.snd

end Obj



/-! ## JS string operations

The JS string operations the compiler uses (`match(/^partials\./)`,
`split('.')`, `replace(pat, repl)` with a non-global literal pattern,
`toLowerCase`, membership tests) are modelled structurally on the character
list of the string, so that every theorem witness evaluates by kernel
reduction. -/

/-- `some rest` when `pre` is a prefix of `l`, with `rest` the remainder. -/
def dropPre? : List Char → List Char → Option (List Char)
  | [], l => some l
  | _ :: _, [] => none
  | p :: ps, c :: cs => if p = c then dropPre? ps cs else none

/-- JS `s.startsWith(pre)` / `s.match(/^pre/)`. -/
def strStartsWith (s pre : String) : Bool :=
  pre.data.isPrefixOf s.data

/-- JS `s.includes(c)` / `s.match(/c/)` for a single character. -/
def strContains (s : String) (c : Char) : Bool :=
  s.data.contains c

/-- JS `s.toLowerCase()`/`s.toLocaleLowerCase()` (they agree on the ASCII
keys this compiler handles). -/
def strToLower (s : String) : String :=
  ⟨s.data.map Char.toLower⟩

/-- JS `s.replace(pat, repl)` with a non-global literal pattern: replace the
first occurrence only (the empty pattern matches at the start, as in JS). -/
def replaceFirstAux (pat repl : List Char) : List Char → List Char
  | [] => []
  | c :: cs =>
      match dropPre? pat (c :: cs) with
      | some rest => repl ++ rest
      | none => c :: replaceFirstAux pat repl cs

def replaceFirst (s pat repl : String) : String :=
  ⟨replaceFirstAux pat.data repl.data s.data⟩

/-- JS `s.split(sep)` for a non-empty literal separator, written with an
explicit fuel so that it reduces structurally (the fuel `s.length` is never
exhausted for a non-empty separator). -/
def splitOnAuxL (sep : List Char) : Nat → List Char → List Char → List (List Char)
  | _, [], cur => [cur.reverse]
  | 0, l, cur => [cur.reverse ++ l]
  | fuel + 1, c :: cs, cur =>
      match dropPre? sep (c :: cs) with
      | some rest => cur.reverse :: splitOnAuxL sep fuel rest []
      | none => splitOnAuxL sep fuel cs (c :: cur)

def splitOnStr (s sep : String) : List String :=
  (splitOnAuxL sep.data s.data.length s.data []).map (fun l => ⟨l⟩)

/-! ## Spreadsheet cells and workbooks (input of `xlsxToJSON`) -/

/-- A spreadsheet cell value as produced by `XLSX.utils.sheet_to_json`:
a JS string, number or boolean.  JS numbers are modelled as exact rationals. -/
inductive Cell where
  | str : String → Cell
  | num : ℚ → Cell
  | bool : Bool → Cell
deriving DecidableEq

/-- JS truthiness of a cell value (`if (Model)` in the source).  The empty
string and `0` are falsy; `sheet_to_json` produces no `NaN`/`null` cells. -/
def Cell.truthy : Cell → Bool
  | .str s => s ≠ ""
  | .num q => q ≠ 0
  | .bool b => b

/-- A cell value used as a JS object key is coerced to a string.  The exact
JS rendering of numbers and booleans is irrelevant to every claim; cells used
as model/field names in real workbooks are strings. -/
def Cell.toKey : Cell → String
  | .str s => s
  | .num q => toString q
  | .bool b => if b then "true" else "false"

instance : DecidableEq (Obj Cell) := inferInstance

instance : DecidableEq (Obj (Obj Cell)) := inferInstance

instance : DecidableEq (Obj (Obj (Obj Cell))) := inferInstance

instance : DecidableEq (Obj (Obj (Obj (Obj Cell)))) := inferInstance

/-- A workbook: `SheetNames` (which JS code reads with `|| []`, so it may be
`undefined` = `none`) and per-name sheets.  A sheet is modelled directly as
its `sheet_to_json` parse: an ordered list of rows, each row an object from
column name to cell value (empty cells are simply absent, as in
`sheet_to_json`). -/
structure Workbook where
  SheetNames : Option (List String)
  Sheets : Obj (List (Obj Cell))
deriving DecidableEq

/-- `workbook.Sheets[sheetName]` followed by `sheet_to_json`. -/
def sheetData (wb : Workbook) (sheetName : String) : List (Obj Cell) :=
  (Obj.get wb.Sheets sheetName).getD []

/-- `Object.keys(data[0] || {})[0]`: the first column name of the first parsed
row, `none` (= `undefined`) when the sheet has no rows. -/
def firstFieldName (data : List (Obj Cell)) : Option String :=
  ((data.headD []).map Prod.fst).head?

/-- `getSheetsHavingModels` (webapp.ts:90-100): keep the sheet names whose
first row's first column name is `'Model'`.  The source's `map` + conditional
`push` over `workbook.SheetNames || []` is a filter. -/
def getSheetsHavingModels (wb : Workbook) : List String :=
  (wb.SheetNames.getD []).filter
    (fun sheetName => firstFieldName (sheetData wb sheetName) == some "Model")

/-! ## SheetExtractor: `getModelsDataAndPartialsFromWorkbook` (webapp.ts:109-138) -/

/-- The mutable state of the extraction loop: `modelsData`
(package → model → field → raw property map), `partials`
(partial name → field → raw property map) and the current `modelKey`,
which is declared once outside both loops and so persists across rows
and sheets. -/
structure ExtractAcc where
  modelsData : Obj (Obj (Obj (Obj Cell)))
  partials : Obj (Obj (Obj Cell))
  modelKey : String
deriving DecidableEq

/-- The key under which a row is stored: `item[Field]` uses the row's `Field`
cell coerced to a string, or the key `"undefined"` when the cell is absent. -/
def rowFieldKey (item : Obj Cell) : String :=
  match Obj.get item "Model", Obj.get item "Field" with
  | _, some c => c.toKey
  | _, none => "undefined"

/-- One iteration of `data.map((item) => ...)` in
`getModelsDataAndPartialsFromWorkbook`.  A truthy `Model` cell opens a new
model (or partial) container; then `Model` is deleted from the row and the
row is stored under its `Field` name in the currently open container.
Writing into a container that was never opened is a JS `TypeError`
(reading/setting a property of `undefined`), modelled as `Except.error`. -/
def processRow (sheetName : String) (acc : ExtractAcc) (item : Obj Cell) :
    Except String ExtractAcc :=
  let model? := Obj.get item "Model"
  let acc :=
    if (model?.map Cell.truthy).getD false then
      let modelKey := (model?.map Cell.toKey).getD ""
      if sheetName = "partials" then
        { acc with partials := Obj.set acc.partials modelKey [], modelKey := modelKey }
      else
        -- if (modelsData[sheetName] === undefined) modelsData[sheetName] = {};
        -- modelsData[sheetName][modelKey] = {}
        let md := if (Obj.get acc.modelsData sheetName).isNone then
            Obj.set acc.modelsData sheetName [] else acc.modelsData
        { acc with
          modelsData :=
            Obj.set md sheetName (Obj.set ((Obj.get md sheetName).getD []) modelKey []),
          modelKey := modelKey }
    else acc
  let item' := Obj.erase item "Model"
  let fieldKey := rowFieldKey item
  if sheetName = "partials" then
    match Obj.get acc.partials acc.modelKey with
    | none => .error "TypeError: cannot set a property of undefined"
    | some pd =>
        .ok { acc with partials := Obj.set acc.partials acc.modelKey (Obj.set pd fieldKey item') }
  else
    match Obj.get acc.modelsData sheetName with
    | none => .error "TypeError: cannot read a property of undefined"
    | some sd =>
        match Obj.get sd acc.modelKey with
        | none => .error "TypeError: cannot set a property of undefined"
        | some m =>
            .ok { acc with
              modelsData := Obj.set acc.modelsData sheetName (Obj.set sd acc.modelKey (Obj.set m fieldKey item')) }

/-- Fold `processRow` over the rows of one sheet. -/
def processSheetRows (sheetName : String) : ExtractAcc → List (Obj Cell) →
    Except String ExtractAcc
  | acc, [] => .ok acc
  | acc, item :: rest => do
      processSheetRows sheetName (← processRow sheetName acc item) rest

/-- Fold the model sheets of the workbook. -/
def processSheets (wb : Workbook) : ExtractAcc → List String → Except String ExtractAcc
  | acc, [] => .ok acc
  | acc, sheetName :: rest => do
      processSheets wb (← processSheetRows sheetName acc (sheetData wb sheetName)) rest

/-- `getModelsDataAndPartialsFromWorkbook` (webapp.ts:109-138). -/
def getModelsDataAndPartialsFromWorkbook (wb : Workbook) : Except String ExtractAcc :=
  processSheets wb ⟨[], [], ""⟩ (getSheetsHavingModels wb)

/-! ## PartialResolver: `fillPartials` (webapp.ts:146-168) -/

/-- The inner `for (let key in model)` loop of `fillPartials`, building the
fresh `retModel`.  A key matching `/^partials\./` is looked up in the partial
bundle (the lookup name is the key with the first `"partials."` removed, which
for a matching key is the suffix after the prefix); `Object.keys(undefined)`
on an unresolved reference is a JS `TypeError`.  Non-matching keys are copied
over unchanged. -/
def fillModelFields (partials : Obj (Obj (Obj Cell))) :
    List (String × Obj Cell) → Obj (Obj Cell) → Except String (Obj (Obj Cell))
  | [], retModel => .ok retModel
  | (key, v) :: rest, retModel =>
      if strStartsWith key "partials." then
        match Obj.get partials (replaceFirst key "partials." "") with
        | none => .error "TypeError: Cannot convert undefined or null to object"
        | some partialsData =>
            fillModelFields partials rest
              (partialsData.foldl (fun r pk => Obj.set r pk.1 pk.2) retModel)
      else fillModelFields partials rest (Obj.set retModel key v)

/-- `fillPartials` applied to one model: the original field map is replaced by
the freshly built `retModel`. -/
def fillModel (partials : Obj (Obj (Obj Cell))) (model : Obj (Obj Cell)) :
    Except String (Obj (Obj Cell)) :=
  fillModelFields partials model []

def fillModelsOfSheet (partials : Obj (Obj (Obj Cell))) :
    List (String × Obj (Obj Cell)) → Except String (Obj (Obj (Obj Cell)))
  | [] => .ok []
  | (modelName, model) :: rest => do
      let m ← fillModel partials model
      let r ← fillModelsOfSheet partials rest
      .ok ((modelName, m) :: r)

def fillSheets (partials : Obj (Obj (Obj Cell))) :
    List (String × Obj (Obj (Obj Cell))) → Except String (Obj (Obj (Obj (Obj Cell))))
  | [] => .ok []
  | (sheetName, sheetModels) :: rest => do
      let m ← fillModelsOfSheet partials sheetModels
      let r ← fillSheets partials rest
      .ok ((sheetName, m) :: r)

/-- `fillPartials` (webapp.ts:146-168): expand every `partials.<X>` field key
of every model, in every sheet, in place. -/
def fillPartials (modelsData : Obj (Obj (Obj (Obj Cell))))
    (partials : Obj (Obj (Obj Cell))) : Except String (Obj (Obj (Obj (Obj Cell)))) :=
  fillSheets partials modelsData

/-! ## APISectionSegregator: `segregateAPISections` (webapp.ts:202-233) -/

/-- `['create','read','update','delete'].includes(key.toLocaleLowerCase())`.
`toLocaleLowerCase`/`toLowerCase` agree on the ASCII keys that occur here. -/
def isActionKey (k : String) : Bool :=
  ["create", "read", "update", "delete"].contains (strToLower k)

/-- `['required','optional'].includes(value.toLocaleLowerCase())`. -/
def isPermValue (s : String) : Bool :=
  ["required", "optional"].contains (strToLower s)

/-- A property that the segregation moves into the `api` sub-object. -/
def isApiMatched (k : String) (v : Cell) : Bool :=
  isActionKey k && (match v with | .str s => isPermValue s | _ => false)

/-- The `keys.map((key) => ...)` scan of one field's property map, building
`apiData`.  When a property key is an action name but its value is not a
string, `bby.toLocaleLowerCase()` is a JS `TypeError` (numbers and booleans
have no such method). -/
def buildApiData : List (String × Cell) → Obj String → Except String (Obj String)
  | [], apiData => .ok apiData
  | (k, v) :: rest, apiData =>
      if isActionKey k then
        match v with
        | .str s =>
            if isPermValue s then buildApiData rest (Obj.set apiData (strToLower k) (strToLower s))
            else buildApiData rest apiData
        | _ => .error "TypeError: bby.toLocaleLowerCase is not a function"
      else buildApiData rest apiData

/-- A field property value after segregation: either an original cell value or
the inserted `api` sub-object. -/
inductive PVal where
  | cell : Cell → PVal
  | apiObj : Obj String → PVal
deriving DecidableEq

instance : DecidableEq (Obj PVal) := inferInstance

instance : DecidableEq (Obj (Obj PVal)) := inferInstance

instance : DecidableEq (Obj (Obj (Obj PVal))) := inferInstance

instance : DecidableEq (Obj (Obj (Obj (Obj PVal)))) := inferInstance

/-- Segregation of one field's property map: the matched properties are
deleted in place (the key snapshot is taken before the scan, so this equals a
filter) and, when `apiData` is non-empty, `modelData[field]['api'] = apiData`
is assigned. -/
def segregateField (props : Obj Cell) : Except String (Obj PVal) := do
  let apiData ← buildApiData props []
  let remaining := props.filter (fun p => !(isApiMatched p.1 p.2))
  let base : Obj PVal := remaining.map (fun p => (p.1, PVal.cell p.2))
  if apiData.isEmpty then pure base else pure (Obj.set base "api" (PVal.apiObj apiData))

def segregateModelFields : List (String × Obj Cell) → Except String (Obj (Obj PVal))
  | [] => .ok []
  | (f, props) :: rest => do
      let q ← segregateField props
      let r ← segregateModelFields rest
      .ok ((f, q) :: r)

def segregatePackage : List (String × Obj (Obj Cell)) → Except String (Obj (Obj (Obj PVal)))
  | [] => .ok []
  | (modelName, m) :: rest => do
      let q ← segregateModelFields m
      let r ← segregatePackage rest
      .ok ((modelName, q) :: r)

/-- `segregateAPISections` (webapp.ts:202-233), applied package by package and
model by model. -/
def segregateAPISections : List (String × Obj (Obj (Obj Cell))) →
    Except String (Obj (Obj (Obj (Obj PVal))))
  | [] => .ok []
  | (packageName, packageData) :: rest => do
      let q ← segregatePackage packageData
      let r ← segregateAPISections rest
      .ok ((packageName, q) :: r)

/-! ## RouteProjector: `processRoutesDataFromModelsData` (webapp.ts:235-269)

`xlsxToJSON` (webapp.ts:302) passes `Object.assign({}, modelsData)` to this
function.  That copy is SHALLOW: the per-package, per-model and per-field
objects below the top level are the very same objects held by `modelsData`,
so the in-place deletions below are visible through `modelsData` when it is
serialized to `models.json` afterwards (webapp.ts:305/311). -/

/-- The first inner loop on one field:
`keys.map(key => { if (key !== 'api') delete modelData[field][key] })`
keeps exactly the `api` property. -/
def gutProps (props : Obj PVal) : Obj PVal :=
  props.filter (fun p => p.1 == "api")

/-- `for (let field in modelData) { ...gut...; if empty delete modelData[field] }`:
every field keeps only its `api` property and fields left empty are removed. -/
def gutModel (m : Obj (Obj PVal)) : Obj (Obj PVal) :=
  (m.map (fun p => (p.1, gutProps p.2))).filter (fun p => !p.2.isEmpty)

/-- `Object.keys(modelData[field]['api'])` as read by the action filter: the
key list of the field's `api` sub-object (empty when there is none; the code
only evaluates this on fields that survived gutting, where `api` exists). -/
def fieldApiKeys (props : Obj PVal) : List String :=
  match Obj.get props "api" with
  | some (.apiObj a) => Obj.keys a
  | _ => []

def fieldApiKeysAt (m : Obj (Obj PVal)) (f : String) : List String :=
  match Obj.get m f with
  | some props => fieldApiKeys props
  | none => []

/-- `Object.keys(modelData).filter(field => Object.keys(modelData[field]['api']).includes(action))`
computed on the gutted model. -/
def actionFieldList (m : Obj (Obj PVal)) (action : String) : List String :=
  let gutted := gutModel m
  (Obj.keys gutted).filter (fun f => (fieldApiKeysAt gutted f).contains action)

def routeActions : List String := ["create", "read", "update", "delete"]

/-- The reorganized route entry of one model: starts as
`{create: [], read: [], update: [], delete: []}`, each action key is assigned
its field list in place and deleted again when the list is empty — i.e. the
entry holds, in the fixed action order, exactly the non-empty lists. -/
def routesFromModel (m : Obj (Obj PVal)) : Obj (List String) :=
  routeActions.filterMap (fun action =>
    if (actionFieldList m action).isEmpty then none
    else some (action, actionFieldList m action))

/-- The value returned by `processRoutesDataFromModelsData` (and written to
`routesFromModels.json`): after `Object.assign(routesData, reorganized)`
every package key of `routesData` holds its reorganized entry. -/
def processRoutesDataFromModelsData (routesData : Obj (Obj (Obj (Obj PVal)))) :
    Obj (Obj (Obj (List String))) :=
  routesData.map (fun pkg =>
    (pkg.1, pkg.2.map (fun model => (model.1, routesFromModel model.2))))

/-- The state of `modelsData` after `processRoutesDataFromModelsData` has run
on its shallow copy (see the section comment): every shared per-model field
object has been gutted in place.  This is what `JSON.stringify(modelsData)`
persists to `models.json` (webapp.ts:305/311). -/
def modelsDataAfterRouteDerivation (modelsData : Obj (Obj (Obj (Obj PVal)))) :
    Obj (Obj (Obj (Obj PVal))) :=
  modelsData.map (fun pkg =>
    (pkg.1, pkg.2.map (fun model => (model.1, gutModel model.2))))

/-! ## `processModels` stage (webapp.ts:476-875)

`processModels` re-reads `models.json`; each field is a JSON object whose
properties the helpers below read.  `GoField` models a field object with the
properties the verified helpers access (`Type` itself is only read by
`createFieldVariables`, which no claim concerns, and is a Lean keyword, so it
is not carried). -/

/-- A `typeFromTypes` registry value: either a scalar type name or a
structured `{type, length}` descriptor. -/
inductive TFT where
  | scalar : String → TFT
  | structured : String → Option ℚ → TFT
deriving DecidableEq

/-- A field object at the `processModels` stage. -/
structure GoField where
  typeFromTypes : Option TFT := none
  type : Option String := none
  Minimum : Option ℚ := none
  Maximum : Option ℚ := none
  Length : Option ℚ := none
  MaximumLength : Option ℚ := none
  length : Option ℚ := none
  DefaultValue : Option Cell := none
  Primary : Bool := false
  NotNull : Bool := false
  AutoCreate : Bool := false
  misc : Option String := none
  api : Option (Obj String) := none
deriving DecidableEq

/-- The JS integer literal `18446744073709551615` (2^64−1) is not an exact
double; it evaluates to the nearest double, 2^64. -/
def jsMaxUint64Literal : ℚ := 18446744073709551616

/-- `setIntType` (webapp.ts:616-636): for `typeFromTypes === 'int'`, default a
missing `Maximum` to `jsMaxUint64Literal` (only when `Minimum` is given) and a
missing `Minimum` to `-1` (only when `Maximum` is then given), then pick the
width from the bounds table. -/
def setIntType (field : GoField) : GoField :=
  if field.typeFromTypes = some (.scalar "int") then
    let Maximum := if field.Minimum.isSome ∧ field.Maximum.isNone
      then some jsMaxUint64Literal else field.Maximum
    let Minimum := if Maximum.isSome ∧ field.Minimum.isNone
      then some (-1 : ℚ) else field.Minimum
    match Minimum, Maximum with
    | none, none => { field with type := some "int64" }
    | some mn, some mx =>
        if mn ≥ 0 ∧ mx ≤ 4294967295 then { field with type := some "uint32" }
        else if mn ≥ 0 ∧ mx > 4294967295 then { field with type := some "uint64" }
        else if mn < 0 ∧ mx ≤ 2147483647 then { field with type := some "int32" }
        else if mn < 0 ∧ mx > 2147483647 then { field with type := some "int64" }
        else field
    | _, _ => field -- unreachable: after defaulting, both bounds are defined or both absent
  else field

/-- The JS literal `3.402823466e385` at webapp.ts:648 exceeds the largest
finite double `(2^53−1)·2^971 ≈ 1.798e308`, so it evaluates to `Infinity`:
as a comparison bound it is `⊤`. -/
def float32Threshold : WithTop ℚ := ⊤

/-- The largest finite double; the JS literal `1.7976931348623157e308` at
webapp.ts:650 parses to exactly this value. -/
def maxFiniteDouble : ℚ := (2 ^ 53 - 1) * 2 ^ 971

def float64Threshold : WithTop ℚ := (maxFiniteDouble : ℚ)

/-- `setFloatType` (webapp.ts:643-655). -/
def setFloatType (field : GoField) : GoField :=
  if field.typeFromTypes = some (.scalar "float") then
    match field.Maximum with
    | none => { field with type := some "float64" }
    | some m =>
        if ((|m| : ℚ) : WithTop ℚ) ≤ float32Threshold then { field with type := some "float32" }
        else if ((|m| : ℚ) : WithTop ℚ) ≤ float64Threshold then { field with type := some "float64" }
        else field
  else field

/-- `addToImports` (webapp.ts:527-541).  `modulePath`-independent. -/
def addToImports (type : String) (imports : List String) (importStrType : String) : List String :=
  let importStringsMaps : Obj String :=
    [("uuid.UUID", "uuid \"github.com/google/uuid\""), ("time.Time", "\"time\"")]
  match importStrType with
  | "" =>
      match Obj.get importStringsMaps type with
      | none => imports
      | some s => if imports.contains s then imports else imports ++ [s]
  | "local" => if imports.contains type then imports else imports ++ [type]
  | _ => imports

/-- `getLocalModelPackageStr` (webapp.ts:677-680); `readModulePath()` (the
first line of `go.mod`) is passed in as `modulePath`. -/
def getLocalModelPackageStr (packageName modulePath : String) : String :=
  packageName ++ " \"" ++ modulePath ++ "/src/models/" ++ strToLower packageName ++ "\""

/-- `fieldNameParts[0]` of `fieldKey.split('.')`. -/
def relatedPackageOf (fieldKey : String) : String :=
  (splitOnStr fieldKey ".").getD 0 ""

/-- `fieldNameParts[1]` of `fieldKey.split('.')` (defined whenever the key
contains a dot). -/
def relatedModelOf (fieldKey : String) : String :=
  (splitOnStr fieldKey ".").getD 1 ""

/-- The parent-reference field inserted by `createRelationShips`
(webapp.ts:702-705): typed as the related model, fully qualified when the
related package differs from the current one, with the cascade-delete
constraint marker. -/
def relRefField (fieldKey packageCamelCase : String) : GoField :=
  { typeFromTypes := some (.scalar (if relatedPackageOf fieldKey ≠ packageCamelCase
      then fieldKey else relatedModelOf fieldKey)),
    misc := some "constraint:OnDelete:CASCADE;" }

/-- The identifier field inserted by `createRelationShips`
(webapp.ts:706-707): the original field object with its type switched to the
unique-identifier type. -/
def relIdField (field : GoField) : GoField :=
  { field with typeFromTypes := some (.scalar "uuid.UUID") }

/-- `createRelationShips` (webapp.ts:688-709).  For a dotted field key it
inserts the parent-reference field (named after the related model, typed as
the related model — fully qualified, with a local import, when the related
package differs from the current one — and carrying the cascade-delete
constraint) and the `<relatedModel>Id` field, which is the original field
object with `typeFromTypes` set to `'uuid.UUID'` (the JS assignment mutates
the shared object; the original dotted key is deleted right after by
`updateField`, so the composition below is the observable state). -/
def createRelationShips (fields : Obj GoField) (fieldKey : String)
    (packageCamelCase : String) (imports : List String) (modulePath : String) :
    Obj GoField × List String :=
  match Obj.get fields fieldKey with
  | none => (fields, imports) -- unreachable: fieldKey ranges over the keys of fields
  | some field =>
      if strContains fieldKey '.' then
        let relatedModelPackage := relatedPackageOf fieldKey
        let relatedModel := relatedModelOf fieldKey
        let relatedFieldName := relatedModel ++ "Id"
        let imports :=
          if relatedModelPackage ≠ packageCamelCase then
            addToImports (getLocalModelPackageStr relatedModelPackage modulePath) imports "local"
          else imports
        let fields := Obj.set fields relatedModel (relRefField fieldKey packageCamelCase)
        let fields := Obj.set fields relatedFieldName (relIdField field)
        (fields, imports)
      else (fields, imports)

/-- `updateField` (webapp.ts:721-727): a non-dotted key is written back, a
dotted key sets `parentModel.value` (JS `false` = `none`) and is deleted. -/
def updateField (fields : Obj GoField) (field : GoField) (fieldKey : String)
    (parentModel : Option String) : Obj GoField × Option String :=
  if !(strContains fieldKey '.') then (Obj.set fields fieldKey field, parentModel)
  else (Obj.erase fields fieldKey, some fieldKey)

/-- `parentModel.value` after the first `for (let fieldKey in fields)` loop of
`processModels` (webapp.ts:790-796): `updateField` overwrites it at every
dotted key, so the last dotted key among the model's (snapshot) field keys
wins; the keys added during the loop contain no dot. -/
def lastDottedKey (fieldKeys : List String) : Option String :=
  fieldKeys.foldl (fun acc k => if strContains k '.' then some k else acc) none

/-- The `allModelsWithHierarchyData` update of `processModels`
(webapp.ts:812-819) for one model: when `parentModel.value` is set, append
`packageCamelCase + '.' + model` to the child list recorded under it. -/
def recordHierarchy (h : Obj (List String)) (packageCamelCase model : String)
    (fieldKeys : List String) : Obj (List String) :=
  match lastDottedKey fieldKeys with
  | none => h
  | some pv =>
      match Obj.get h pv with
      | none => Obj.set h pv [packageCamelCase ++ "." ++ model]
      | some l => Obj.set h pv (l ++ [packageCamelCase ++ "." ++ model])

/-- The parent→children side table built by the package/model loops of
`processModels` (webapp.ts:780-843).  `camel` stands for lodash `_.camelCase`
(an external collaborator; the identity on the lower-case single-word package
names of real schemas). -/
def processModelsHierarchy (camel : String → String)
    (modelsData : Obj (Obj (Obj GoField))) : Obj (List String) :=
  modelsData.foldl (fun h pkg =>
    pkg.2.foldl (fun h model => recordHierarchy h (camel pkg.1) model.1 (Obj.keys model.2)) h) []

/-! ## HierarchySorter: `sortModelsByHierarchy` (webapp.ts:736-773) -/

/-- `model.replace(/Models\./, '.')`. -/
def modelsConv (model : String) : String := replaceFirst model "Models." "."

/-- Whether some recorded child list contains the converted model name. -/
def isChildModel (t : Obj (List String)) (model : String) : Bool :=
  (Obj.values t).any (fun item => item.contains (modelsConv model))

/-- Seed phase (webapp.ts:739-746): push, in input order, every model that is
nobody's child. -/
def seedParents (allModelStrs : List String) (t : Obj (List String)) : List String :=
  allModelStrs.foldl (fun acc model =>
    if !(isChildModel t model) then acc ++ [model] else acc) []

/-- `numParents` and `parent` for one model (webapp.ts:752-759): count the
entries whose child list contains the converted name; `parent` ends as the
key of the last matching entry (`''` if none). -/
def parentInfo (t : Obj (List String)) (conv : String) : ℕ × String :=
  t.foldl (fun acc p => if p.2.contains conv then (acc.1 + 1, p.1) else acc) (0, "")

/-- One pass of the bounded phase (webapp.ts:750-765): append each model with
exactly one recorded parent whose parent is already placed, if not itself
placed yet. -/
def hierarchyPass (allModelStrs : List String) (t : Obj (List String))
    (sorted : List String) : List String :=
  allModelStrs.foldl (fun acc model =>
    let info := parentInfo t (modelsConv model)
    if info.1 = 1 then
      if acc.contains (replaceFirst info.2 "." "Models.") then
        if !(acc.contains model) then acc ++ [model] else acc
      else acc
    else acc) sorted

/-- `sortModelsByHierarchy` (webapp.ts:736-773): seed with parents, run the
pass body six times (`for (let i = 0; i <= 5; i++)`), then append all models
not yet placed, in input order. -/
def sortModelsByHierarchy (allModelStrs : List String) (t : Obj (List String)) :
    List String :=
  let sorted := seedParents allModelStrs t
  let sorted := (List.range 6).foldl (fun acc _ => hierarchyPass allModelStrs t acc) sorted
  allModelStrs.foldl (fun acc model =>
    if !(acc.contains model) then acc ++ [model] else acc) sorted

/-! ## Helper accessors and concrete example inputs -/

/-- Nested lookup `data[pkg][model][f]` in a raw schema. -/
def schemaField (md : Obj (Obj (Obj (Obj Cell)))) (pkg model f : String) : Option (Obj Cell) :=
  (Obj.get md pkg).bind (fun sd => (Obj.get sd model).bind (fun m => Obj.get m f))

/-- Nested lookup `data[pkg][model][f]` in a segregated schema. -/
def segSchemaField (md : Obj (Obj (Obj (Obj PVal)))) (pkg model f : String) : Option (Obj PVal) :=
  (Obj.get md pkg).bind (fun sd => (Obj.get sd model).bind (fun m => Obj.get m f))

/-- Whether an embedded computation completed without a JS exception. -/
def isOkB {α : Type} : Except String α → Bool
  | .ok _ => true
  | .error _ => false

/-- A one-sheet workbook: sheet `users` with the single row
`{Model: 'User', Field: 'id', Type: 'uuid'}`. -/
def exWorkbook : Workbook :=
  { SheetNames := some ["users"],
    Sheets := [("users",
      [[("Model", Cell.str "User"), ("Field", Cell.str "id"), ("Type", Cell.str "uuid")]])] }

/-- The extraction state produced by `exWorkbook`. -/
def exExtract : ExtractAcc :=
  { modelsData :=
      [("users", [("User", [("id", [("Field", Cell.str "id"), ("Type", Cell.str "uuid")])])])],
    partials := [],
    modelKey := "User" }

/-- A model whose only field key references a partial that the (empty) bundle
does not define. -/
def exBadPartialRef : Obj (Obj (Obj (Obj Cell))) :=
  [("users", [("User", [("partials.Missing", [])])])]

/-- A type-resolved schema before API segregation: package `users`, model
`User`, field `name` (a string required on create) and field `age` (no
permission columns at all). -/
def exRawSchema : Obj (Obj (Obj (Obj Cell))) :=
  [("users", [("User",
    [("name", [("Type", Cell.str "string"), ("Create", Cell.str "required")]),
     ("age", [("Type", Cell.str "int")])])])]

/-- The field map of `users.User` after segregating `exRawSchema`. -/
def exSegFields : Obj (Obj PVal) :=
  [("name", [("Type", PVal.cell (Cell.str "string")),
             ("api", PVal.apiObj [("create", "required")])]),
   ("age", [("Type", PVal.cell (Cell.str "int"))])]

/-- `exRawSchema` after `segregateAPISections`. -/
def exSegSchema : Obj (Obj (Obj (Obj PVal))) :=
  [("users", [("User", exSegFields)])]



/-- A model `shop.Order` carrying two dotted field keys that reference
different parent models. -/
def exTwoParentModels : Obj (Obj (Obj GoField)) :=
  [("shop", [("Order", [("users.User", ({} : GoField)), ("cat.Item", ({} : GoField))])])]

/-- A field map holding one cross-package dotted field key. -/
def exRelFields : Obj GoField :=
  [("users.User", { Minimum := some 3 })]

/-! ## General lemmas about the object model -/

namespace Obj

theorem get_set_self {V : Type} (o : Obj V) (k : String) (v : V) :
    get (set o k v) k = some v := by
  induction o with
  | nil => simp [get, set]
  | cons p rest ih =>
      by_cases h : p.1 = k
      · simp [get, set, h]
      · simp [get, set, h, ih]

theorem get_set_ne {V : Type} (o : Obj V) (k k' : String) (v : V) (h : k' ≠ k) :
    get (set o k v) k' = get o k' := by
  induction o with
  | nil => simp [get, set, Ne.symm h]
  | cons p rest ih =>
      by_cases hp : p.1 = k
      · subst hp
        simp [get, set, Ne.symm h, h]
      · by_cases hp' : p.1 = k'
        · simp [get, set, hp, hp', h]
        · simp [get, set, hp, hp', ih]

theorem set_absent {V : Type} (o : Obj V) (k : String) (v : V)
    (h : get o k = none) : set o k v = o ++ [(k, v)] := by
  induction o with
  | nil => simp [set]
  | cons p rest ih =>
      by_cases hp : p.1 = k
      · simp [get, hp] at h
      · simp [get, hp] at h
        simp [set, hp, ih h]

theorem get_append {V : Type} (o o₂ : Obj V) (k : String) :
    get (o ++ o₂) k = ((get o k).rec (get o₂ k) (fun v => some v)) := by
  induction o with
  | nil => simp [get]
  | cons p rest ih =>
      by_cases hp : p.1 = k
      · simp [get, hp]
      · simp [get, hp, ih]

theorem get_erase_self {V : Type} (o : Obj V) (k : String) :
    get (erase o k) k = none := by
  induction o with
  | nil => simp [get, erase]
  | cons p rest ih =>
      by_cases hp : p.1 = k
      · simpa [erase, hp] using ih
      · simpa [erase, get, hp] using ih

theorem get_erase_ne {V : Type} (o : Obj V) (k k' : String) (h : k' ≠ k) :
    get (erase o k) k' = get o k' := by
  induction o with
  | nil => simp [get, erase]
  | cons p rest ih =>
      by_cases hp : p.1 = k
      · subst hp
        simp [erase, get, Ne.symm h, ih]
      · by_cases hp' : p.1 = k'
        · simp [erase, get, hp, hp', h]
        · simp [erase, get, hp, hp', ih]

theorem get_eq_none_iff {V : Type} (o : Obj V) (k : String) :
    get o k = none ↔ k ∉ keys o := by
  induction o with
  | nil => simp [get, keys]
  | cons p rest ih =>
      by_cases hp : p.1 = k
      · simp [get, keys, hp]
      · have hp2 : ¬k = p.1 := fun hh => hp hh.symm
        simp [get, keys, hp, ih, hp2]

theorem keys_set {V : Type} (o : Obj V) (k : String) (v : V) :
    keys (set o k v) = if k ∈ keys o then keys o else keys o ++ [k] := by
  induction o with
  | nil => simp [set, keys]
  | cons p rest ih =>
      by_cases hp : p.1 = k
      · simp [set, keys, hp]
      · have hp2 : ¬k = p.1 := fun hh => hp hh.symm
        simp only [set, if_neg hp, keys, List.map_cons] at ih ⊢
        rw [ih]
        by_cases hm : k ∈ List.map Prod.fst rest
        · simp [hm, hp2]
        · simp [hm, hp2]

theorem keys_erase {V : Type} (o : Obj V) (k : String) :
    keys (erase o k) = (keys o).filter (fun k' => k' != k) := by
  induction o with
  | nil => simp [erase, keys]
  | cons p rest ih =>
      simp only [keys] at ih
      by_cases hp : p.1 = k
      · simp [erase, keys, hp, ih]
      · simp [erase, keys, hp, ih]

/-- Mapping a function over the values of an object commutes with lookup. -/
theorem get_mapValues {A B : Type} (o : Obj A) (f : A → B) (k : String) :
    get (o.map (fun p => (p.1, f p.2))) k = (get o k).map f := by
  induction o with
  | nil => simp [get]
  | cons p rest ih =>
      by_cases hp : p.1 = k
      · simp [get, hp]
      · simp [get, hp, ih]

end Obj

namespace Obj

theorem get_mem {V : Type} (o : Obj V) (k : String) (v : V)
    (h : get o k = some v) : (k, v) ∈ o := by
  induction o with
  | nil => simp [get] at h
  | cons p rest ih =>
      by_cases hp : p.1 = k
      · simp [get, hp] at h
        have hpv : p = (k, v) := by
          cases p
          simp_all
        rw [hpv]
        exact List.mem_cons_self _ _
      · simp [get, hp] at h
        exact List.mem_cons_of_mem _ (ih h)

end Obj

/-- Folding JS property assignment of fresh, pairwise distinct keys onto an
object appends the entries in order. -/
theorem foldl_set_append {A : Type} (l : List (String × A)) (acc : Obj A)
    (hfresh : ∀ p ∈ l, Obj.get acc p.1 = none) (hnd : (Obj.keys l).Nodup) :
    l.foldl (fun r p => Obj.set r p.1 p.2) acc = acc ++ l := by
  induction l generalizing acc with
  | nil => simp
  | cons q rest ih =>
      have h1 : Obj.set acc q.1 q.2 = acc ++ [q] := by
        have := Obj.set_absent acc q.1 q.2 (hfresh q (List.mem_cons_self q rest))
        simpa using this
      simp only [List.foldl_cons, h1]
      have h2 : ∀ p ∈ rest, Obj.get (acc ++ [q]) p.1 = none := by
        intro p hp
        rw [Obj.get_append]
        have hq : Obj.get acc p.1 = none := hfresh p (List.mem_cons_of_mem _ hp)
        rw [hq]
        have hne : ¬q.1 = p.1 := by
          simp only [Obj.keys, List.map_cons, List.nodup_cons] at hnd
          intro hh
          exact hnd.1 (hh ▸ List.mem_map_of_mem Prod.fst hp)
        simp [Obj.get, hne]
      have h3 : (Obj.keys rest).Nodup := by
        simp only [Obj.keys, List.map_cons, List.nodup_cons] at hnd
        exact hnd.2
      rw [ih (acc ++ [q]) h2 h3, List.append_assoc]
      simp

/-- C10: model-sheet classification is total and exact: no sheet list or an
empty parsed row list classifies nothing and raises no error (the embedding
is a total function), and a sheet is classified as a model sheet exactly when
it is listed in `SheetNames` and its first data row's first column name is
the string `'Model'`. -/
theorem c10_model_sheet_classification :
    (∀ (wb : Workbook) (s : String),
        s ∈ getSheetsHavingModels wb ↔
          s ∈ wb.SheetNames.getD [] ∧ firstFieldName (sheetData wb s) = some "Model")
    ∧ (∀ sheets : Obj (List (Obj Cell)),
        getSheetsHavingModels { SheetNames := none, Sheets := sheets } = [])
    ∧ firstFieldName ([] : List (Obj Cell)) = none := by
  refine ⟨?_, ?_, rfl⟩
  · intro wb s
    simp [getSheetsHavingModels, List.mem_filter]
  · intro sheets
    simp [getSheetsHavingModels]

/-- C2 (amended): the raw property map stored for a row of a (non-`partials`)
model sheet is the row with only its `Model` column stripped: it sits under
the row's `Field` name in the current model of the current sheet, and its key
set is the row's column names minus `Model` only (`Field` is retained). -/
theorem c2_sheet_extractor_strips_only_model (sheetName : String) (acc : ExtractAcc)
    (item : Obj Cell) (st : ExtractAcc) (hs : sheetName ≠ "partials")
    (h : processRow sheetName acc item = .ok st) :
    schemaField st.modelsData sheetName st.modelKey (rowFieldKey item)
        = some (Obj.erase item "Model") ∧
    Obj.keys (Obj.erase item "Model")
        = (Obj.keys item).filter (fun k => k != "Model") := by
  refine ⟨?_, Obj.keys_erase item "Model"⟩
  unfold processRow at h
  simp only [if_neg hs] at h
  split at h
  · exact Except.noConfusion h
  · split at h
    · exact Except.noConfusion h
    · rename_i sd hsd m hm
      rw [Except.ok.injEq] at h
      subst h
      simp only [schemaField]
      rw [Obj.get_set_self]
      simp only [Option.some_bind]
      rw [Obj.get_set_self]
      simp only [Option.some_bind]
      rw [Obj.get_set_self]

/-- C2 counterexample: extracting the workbook whose `users` sheet holds the
single row `{Model:'User', Field:'id', Type:'uuid'}` stores under `id` a
property map that still contains the key `Field` — the claim demands the key
set be the row's columns minus both `Model` and `Field`. -/
theorem c2_counterexample_field_column_retained :
    getModelsDataAndPartialsFromWorkbook exWorkbook = .ok exExtract ∧
    schemaField exExtract.modelsData "users" "User" "id"
        = some [("Field", Cell.str "id"), ("Type", Cell.str "uuid")] ∧
    "Field" ∈ Obj.keys [("Field", Cell.str "id"), ("Type", Cell.str "uuid")] := by
  refine ⟨rfl, rfl, by decide⟩

/-- Witness for C2 (amended) at the single row of `exWorkbook`. -/
theorem c2_sheet_extractor_strips_only_model_witness :
    schemaField exExtract.modelsData "users" exExtract.modelKey
        (rowFieldKey [("Model", Cell.str "User"), ("Field", Cell.str "id"), ("Type", Cell.str "uuid")])
        = some (Obj.erase [("Model", Cell.str "User"), ("Field", Cell.str "id"), ("Type", Cell.str "uuid")] "Model") ∧
    Obj.keys (Obj.erase [("Model", Cell.str "User"), ("Field", Cell.str "id"), ("Type", Cell.str "uuid")] "Model")
        = (Obj.keys [("Model", Cell.str "User"), ("Field", Cell.str "id"), ("Type", Cell.str "uuid")]).filter
            (fun k => k != "Model") :=
  c2_sheet_extractor_strips_only_model "users" ⟨[], [], ""⟩
    [("Model", Cell.str "User"), ("Field", Cell.str "id"), ("Type", Cell.str "uuid")]
    exExtract (by decide) rfl

/-- An unresolved `partials.<X>` reference inside the field list makes the
inner `fillPartials` loop fail with a TypeError. -/
theorem fillModelFields_unresolved_fails (partials : Obj (Obj (Obj Cell))) :
    ∀ (l : List (String × Obj Cell)) (ret : Obj (Obj Cell)) (key : String) (v : Obj Cell),
      (key, v) ∈ l → strStartsWith key "partials." = true →
      Obj.get partials (replaceFirst key "partials." "") = none →
      isOkB (fillModelFields partials l ret) = false := by
  intro l
  induction l with
  | nil =>
      intro ret key v hmem
      simp at hmem
  | cons q rest ih =>
      intro ret key v hmem hpre hnone
      obtain ⟨qk, qv⟩ := q
      rcases List.mem_cons.mp hmem with heq | hmem'
      · rw [Prod.mk.injEq] at heq
        obtain ⟨hk, hv⟩ := heq
        subst hk
        simp [fillModelFields, hpre, hnone, isOkB]
      · by_cases hq : strStartsWith qk "partials." = true
        · cases hget : Obj.get partials (replaceFirst qk "partials." "") with
          | none => simp [fillModelFields, hq, hget, isOkB]
          | some pd =>
              simp only [fillModelFields, hq, hget, if_pos]
              exact ih _ key v hmem' hpre hnone
        · simp only [fillModelFields, hq, Bool.false_eq_true, if_neg, ite_false]
          exact ih _ key v hmem' hpre hnone

/-- Error propagation through the model loop of `fillPartials`. -/
theorem fillModelsOfSheet_fails (partials : Obj (Obj (Obj Cell))) :
    ∀ (l : List (String × Obj (Obj Cell))) (modelName : String) (model : Obj (Obj Cell)),
      (modelName, model) ∈ l → isOkB (fillModel partials model) = false →
      isOkB (fillModelsOfSheet partials l) = false := by
  intro l
  induction l with
  | nil =>
      intro modelName model hmem
      simp at hmem
  | cons q rest ih =>
      intro modelName model hmem hbad
      obtain ⟨qn, qm⟩ := q
      rcases List.mem_cons.mp hmem with heq | hmem'
      · rw [Prod.mk.injEq] at heq
        obtain ⟨hk, hv⟩ := heq
        subst hv
        cases hres : fillModel partials model with
        | ok x => rw [hres] at hbad; simp [isOkB] at hbad
        | error e => simp [fillModelsOfSheet, hres, isOkB, Bind.bind, Except.bind]
      · cases hres : fillModel partials qm with
        | error e => simp [fillModelsOfSheet, hres, isOkB, Bind.bind, Except.bind]
        | ok x =>
            have hrest := ih modelName model hmem' hbad
            cases hrest' : fillModelsOfSheet partials rest with
            | error e => simp [fillModelsOfSheet, hres, hrest', isOkB, Bind.bind, Except.bind]
            | ok y => rw [hrest'] at hrest; simp [isOkB] at hrest

/-- Error propagation through the sheet loop of `fillPartials`. -/
theorem fillSheets_fails (partials : Obj (Obj (Obj Cell))) :
    ∀ (l : List (String × Obj (Obj (Obj Cell)))) (sheetName : String) (sd : Obj (Obj (Obj Cell))),
      (sheetName, sd) ∈ l → isOkB (fillModelsOfSheet partials sd) = false →
      isOkB (fillSheets partials l) = false := by
  intro l
  induction l with
  | nil =>
      intro sheetName sd hmem
      simp at hmem
  | cons q rest ih =>
      intro sheetName sd hmem hbad
      obtain ⟨qn, qd⟩ := q
      rcases List.mem_cons.mp hmem with heq | hmem'
      · rw [Prod.mk.injEq] at heq
        obtain ⟨hk, hv⟩ := heq
        subst hv
        cases hres : fillModelsOfSheet partials sd with
        | ok x => rw [hres] at hbad; simp [isOkB] at hbad
        | error e => simp [fillSheets, hres, isOkB, Bind.bind, Except.bind]
      · cases hres : fillModelsOfSheet partials qd with
        | error e => simp [fillSheets, hres, isOkB, Bind.bind, Except.bind]
        | ok x =>
            have hrest := ih sheetName sd hmem' hbad
            cases hrest' : fillSheets partials rest with
            | error e => simp [fillSheets, hres, hrest', isOkB, Bind.bind, Except.bind]
            | ok y => rw [hrest'] at hrest; simp [isOkB] at hrest

/-- When no field key matches `/^partials\./`, the loop copies every entry
into the fresh `retModel` in order. -/
theorem fillModelFields_nomatch (partials : Obj (Obj (Obj Cell))) :
    ∀ (l : List (String × Obj Cell)) (ret : Obj (Obj Cell)),
      (∀ p ∈ l, strStartsWith p.1 "partials." = false) →
      fillModelFields partials l ret = .ok (l.foldl (fun r p => Obj.set r p.1 p.2) ret) := by
  intro l
  induction l with
  | nil => intro ret _; simp [fillModelFields]
  | cons q rest ih =>
      intro ret hall
      obtain ⟨qk, qv⟩ := q
      have hq : strStartsWith qk "partials." = false :=
        hall (qk, qv) (List.mem_cons_self _ _)
      simp only [fillModelFields, hq, Bool.false_eq_true, if_neg, ite_false, List.foldl_cons]
      exact ih _ (fun p hp => hall p (List.mem_cons_of_mem _ hp))

/-- C3 (amended): for every model containing a field key `partials.X` where
`X` names no entry of the partial bundle, `fillPartials` raises an error (a
JS TypeError aborts the phase) and does not complete; a model whose field
keys contain no `partials.` reference passes through unchanged. -/
theorem c3_unresolved_partial_raises :
    (∀ (modelsData : Obj (Obj (Obj (Obj Cell)))) (partials : Obj (Obj (Obj Cell)))
        (sheetName modelName key : String)
        (sd : Obj (Obj (Obj Cell))) (model : Obj (Obj Cell)) (v : Obj Cell),
        Obj.get modelsData sheetName = some sd →
        Obj.get sd modelName = some model →
        (key, v) ∈ model →
        strStartsWith key "partials." = true →
        Obj.get partials (replaceFirst key "partials." "") = none →
        isOkB (fillPartials modelsData partials) = false)
    ∧ (∀ (partials : Obj (Obj (Obj Cell))) (model : Obj (Obj Cell)),
        (∀ p ∈ model, strStartsWith p.1 "partials." = false) →
        (Obj.keys model).Nodup →
        fillModel partials model = .ok model) := by
  constructor
  · intro modelsData partials sheetName modelName key sd model v hsd hmodel hmem hpre hnone
    have h1 : isOkB (fillModel partials model) = false :=
      fillModelFields_unresolved_fails partials model [] key v hmem hpre hnone
    have h2 : isOkB (fillModelsOfSheet partials sd) = false :=
      fillModelsOfSheet_fails partials sd modelName model (Obj.get_mem sd modelName model hmodel) h1
    exact fillSheets_fails partials modelsData sheetName sd
      (Obj.get_mem modelsData sheetName sd hsd) h2
  · intro partials model hall hnd
    rw [fillModel, fillModelFields_nomatch partials model [] hall]
    rw [foldl_set_append model [] (fun p _ => rfl) hnd]
    rfl

/-- C3 counterexample: on a model whose only field key is `partials.Missing`
with an empty partial bundle, `fillPartials` raises (the claim asserts it
completes without error). -/
theorem c3_counterexample_unresolved_partial_throws :
    fillPartials exBadPartialRef [] =
      .error "TypeError: Cannot convert undefined or null to object" := rfl

/-- Witness for C3 (amended): both conjuncts at concrete inputs. -/
theorem c3_unresolved_partial_raises_witness :
    isOkB (fillPartials exBadPartialRef []) = false ∧
    fillModel [] [("name", [("Type", Cell.str "string")])]
        = .ok [("name", [("Type", Cell.str "string")])] :=
  ⟨c3_unresolved_partial_raises.1 exBadPartialRef [] "users" "User" "partials.Missing"
      [("User", [("partials.Missing", [])])] [("partials.Missing", [])] []
      rfl rfl (by decide) (by decide) rfl,
   c3_unresolved_partial_raises.2 [] [("name", [("Type", Cell.str "string")])]
      (by decide) (by decide)⟩

/-- C4 (amended): for an integer-typed field with exactly one of
`Minimum`/`Maximum` given, `setIntType` defaults a missing `Maximum` to 2^64
(the double value of the literal `18446744073709551615`) and a missing
`Minimum` to `-1` — not to `0`/`±(2^64−1)` — so a field with `Minimum` absent
resolves to the signed 32-bit width when `Maximum ≤ 2^31−1` and to the signed
64-bit width otherwise (never unsigned), and a field with `Maximum` absent
resolves to the unsigned 64-bit width when `Minimum ≥ 0` and the signed
64-bit width otherwise. -/
theorem c4_single_bound_defaults (f : GoField)
    (hT : f.typeFromTypes = some (.scalar "int")) :
    (∀ mx : ℚ, f.Minimum = none → f.Maximum = some mx →
        (setIntType f).type = some (if mx ≤ 2147483647 then "int32" else "int64"))
    ∧ (∀ mn : ℚ, f.Minimum = some mn → f.Maximum = none →
        (setIntType f).type = some (if 0 ≤ mn then "uint64" else "int64")) := by
  constructor
  · intro mx hmin hmax
    by_cases hmx : mx ≤ 2147483647
    · simp [setIntType, hT, hmin, hmax, hmx]
      norm_num
    · have hgt : (2147483647 : ℚ) < mx := lt_of_not_le hmx
      simp [setIntType, hT, hmin, hmax, hmx, hgt]
      norm_num
  · intro mn hmin hmax
    by_cases hmn : (0 : ℚ) ≤ mn
    · simp [setIntType, hT, hmin, hmax, hmn, jsMaxUint64Literal]
      norm_num
    · have hlt : mn < 0 := lt_of_not_le hmn
      simp [setIntType, hT, hmin, hmax, hmn, hlt, jsMaxUint64Literal]
      norm_num

/-- C4 counterexample: an integer field with `Minimum` absent and
`Maximum = 100` (so `0 ≤ Maximum ≤ 2^32−1`) resolves to `int32`, not to the
unsigned 32-bit width the claim demands. -/
theorem c4_counterexample_missing_minimum_is_signed :
    (setIntType { typeFromTypes := some (.scalar "int"), Maximum := some 100 }).type
        = some "int32" ∧
    (setIntType { typeFromTypes := some (.scalar "int"), Maximum := some 100 }).type
        ≠ some "uint32" := by
  constructor
  · decide
  · decide

/-- Witness for C4 (amended) at `Maximum = 100` and at `Minimum = 5`. -/
theorem c4_single_bound_defaults_witness :
    (setIntType { typeFromTypes := some (.scalar "int"), Maximum := some 100 }).type
        = some (if (100 : ℚ) ≤ 2147483647 then "int32" else "int64") ∧
    (setIntType { typeFromTypes := some (.scalar "int"), Minimum := some 5 }).type
        = some (if (0 : ℚ) ≤ 5 then "uint64" else "int64") :=
  ⟨(c4_single_bound_defaults { typeFromTypes := some (.scalar "int"), Maximum := some 100 }
      rfl).1 100 rfl rfl,
   (c4_single_bound_defaults { typeFromTypes := some (.scalar "int"), Minimum := some 5 }
      rfl).2 5 rfl rfl⟩

/-- C7: the 32-bit selection threshold in `setFloatType` is the literal
`3.402823466e385`, which overflows to `Infinity`, so a float field with
`Maximum = 10^39` — far above the IEEE-754 single-precision maximum
(≈3.4028235e38, first conjunct) — still resolves to `float32`, where the
claim (and the intended constant `3.402823466e+38`) requires `float64`. -/
theorem c7_float32_threshold_is_infinite :
    (setFloatType { typeFromTypes := some (.scalar "float"), Maximum := some ((10 : ℚ) ^ 39) }).type
        = some "float32"
    ∧ ((34028235 : ℚ) * 10 ^ 31) < (10 : ℚ) ^ 39 := by
  constructor
  · simp [setFloatType, float32Threshold]
  · norm_num

/-- C1: `xlsxToJSON` derives the route schema from `Object.assign({}, modelsData)`,
a shallow copy, so the in-place deletions of `processRoutesDataFromModelsData`
reach the field objects shared with `modelsData`: the persisted compiled
schema keeps only each field's `api` object (`Type` is gone from `name`) and
drops fields without one (`age` is gone), contradicting the claimed frame
property.  Evaluation of the embedded pipeline at the failing input. -/
theorem c1_models_json_loses_non_permission_properties :
    segregateAPISections exRawSchema = .ok exSegSchema ∧
    segSchemaField exSegSchema "users" "User" "name"
        = some [("Type", PVal.cell (Cell.str "string")),
                ("api", PVal.apiObj [("create", "required")])] ∧
    segSchemaField (modelsDataAfterRouteDerivation exSegSchema) "users" "User" "name"
        = some [("api", PVal.apiObj [("create", "required")])] ∧
    segSchemaField (modelsDataAfterRouteDerivation exSegSchema) "users" "User" "age" = none := by
  exact ⟨rfl, rfl, rfl, rfl⟩

namespace Obj

theorem erase_append {V : Type} (a b : Obj V) (k : String) :
    erase (a ++ b) k = erase a k ++ erase b k := by
  induction a with
  | nil => simp [erase]
  | cons p rest ih =>
      by_cases hp : p.1 = k
      · simp [erase, hp, ih]
      · simp [erase, hp, ih]

theorem keys_append {V : Type} (a b : Obj V) :
    keys (a ++ b) = keys a ++ keys b := by
  simp [keys]

end Obj

/-- A string never equals itself extended with the suffix `Id`. -/
theorem ne_self_append_Id (s : String) : s ≠ s ++ "Id" := by
  intro h
  have hlen := congrArg String.length h
  rw [String.length_append] at hlen
  simp at hlen
  exact absurd hlen (by decide)

/-- C5 (amended): per model, only the LAST dotted field key is recorded in
the parent→children side table: the model's qualified name is appended to the
child list under that single related-model key, and every other key of the
table is unchanged — so a model carrying two dotted fields referencing
different parent models appears only in the child set of the later one. -/
theorem c5_only_last_dotted_recorded (h : Obj (List String))
    (packageCamelCase model : String) (fieldKeys : List String) (pv : String)
    (hlast : lastDottedKey fieldKeys = some pv) :
    Obj.get (recordHierarchy h packageCamelCase model fieldKeys) pv
        = some (((Obj.get h pv).getD []) ++ [packageCamelCase ++ "." ++ model]) ∧
    ∀ k, k ≠ pv →
        Obj.get (recordHierarchy h packageCamelCase model fieldKeys) k = Obj.get h k := by
  unfold recordHierarchy
  rw [hlast]
  dsimp only
  constructor
  · split
    · rename_i heq
      rw [Obj.get_set_self, heq]
      simp
    · rename_i l heq
      rw [Obj.get_set_self, heq]
      simp
  · intro k hk
    split
    · rw [Obj.get_set_ne _ _ _ _ hk]
    · rw [Obj.get_set_ne _ _ _ _ hk]

/-- C5 counterexample: the model `shop.Order` references both `users.User`
and `cat.Item`; the side table maps only the later key `cat.Item` to
`[shop.Order]`, and `users.User` — which the claim requires to also list
`shop.Order` — is absent from the table entirely. -/
theorem c5_counterexample_first_parent_not_recorded :
    Obj.get (processModelsHierarchy (fun s => s) exTwoParentModels) "users.User" = none ∧
    Obj.get (processModelsHierarchy (fun s => s) exTwoParentModels) "cat.Item"
        = some ["shop.Order"] := by
  exact ⟨rfl, rfl⟩

/-- Witness for C5 (amended) on the fields of `shop.Order`. -/
theorem c5_only_last_dotted_recorded_witness :
    Obj.get (recordHierarchy [] "shop" "Order" ["users.User", "cat.Item"]) "cat.Item"
        = some (((Obj.get ([] : Obj (List String)) "cat.Item").getD [])
                ++ ["shop" ++ "." ++ "Order"]) :=
  (c5_only_last_dotted_recorded [] "shop" "Order" ["users.User", "cat.Item"]
    "cat.Item" rfl).1

/-- C6: expanding a dotted field key `<package>.<model>` (via
`createRelationShips` followed by `updateField`, exactly as the first field
loop of `processModels` runs them) removes the dotted key and adds exactly
two fields in its place: the reference field named after the related model
(`relRefField`: cascade-delete marker; fully qualified type when the related
package differs from the current one, which also adds the local import) and
the identifier field `<relatedModel>Id` (`relIdField`: the original field's
properties with the type resolved to the unique-identifier type
`uuid.UUID`).  All other fields are untouched. -/
theorem c6_relationship_expansion (fields : Obj GoField) (field : GoField)
    (fieldKey packageCamelCase modulePath : String) (imports : List String)
    (pm : Option String)
    (hget : Obj.get fields fieldKey = some field)
    (hdot : strContains fieldKey '.' = true)
    (hfresh1 : Obj.get fields (relatedModelOf fieldKey) = none)
    (hfresh2 : Obj.get fields (relatedModelOf fieldKey ++ "Id") = none)
    (hne1 : relatedModelOf fieldKey ≠ fieldKey)
    (hne2 : relatedModelOf fieldKey ++ "Id" ≠ fieldKey) :
    (updateField (createRelationShips fields fieldKey packageCamelCase imports modulePath).1
        field fieldKey pm).1 =
      Obj.erase fields fieldKey ++
        [(relatedModelOf fieldKey, relRefField fieldKey packageCamelCase),
         (relatedModelOf fieldKey ++ "Id", relIdField field)] ∧
    Obj.get (updateField (createRelationShips fields fieldKey packageCamelCase imports
        modulePath).1 field fieldKey pm).1 fieldKey = none ∧
    Obj.keys (updateField (createRelationShips fields fieldKey packageCamelCase imports
        modulePath).1 field fieldKey pm).1 =
      (Obj.keys fields).filter (fun k => k != fieldKey) ++
        [relatedModelOf fieldKey, relatedModelOf fieldKey ++ "Id"] ∧
    (∀ k, k ≠ fieldKey → k ≠ relatedModelOf fieldKey →
        k ≠ relatedModelOf fieldKey ++ "Id" →
        Obj.get (updateField (createRelationShips fields fieldKey packageCamelCase imports
          modulePath).1 field fieldKey pm).1 k = Obj.get fields k) ∧
    (createRelationShips fields fieldKey packageCamelCase imports modulePath).2 =
      (if relatedPackageOf fieldKey ≠ packageCamelCase then
        addToImports (getLocalModelPackageStr (relatedPackageOf fieldKey) modulePath)
          imports "local"
       else imports) ∧
    (updateField (createRelationShips fields fieldKey packageCamelCase imports modulePath).1
        field fieldKey pm).2 = some fieldKey := by
  have hneRid : relatedModelOf fieldKey ≠ relatedModelOf fieldKey ++ "Id" :=
    ne_self_append_Id _
  have hstep : createRelationShips fields fieldKey packageCamelCase imports modulePath =
      (Obj.set (Obj.set fields (relatedModelOf fieldKey) (relRefField fieldKey packageCamelCase))
        (relatedModelOf fieldKey ++ "Id") (relIdField field),
       if relatedPackageOf fieldKey ≠ packageCamelCase then
         addToImports (getLocalModelPackageStr (relatedPackageOf fieldKey) modulePath)
           imports "local"
       else imports) := by
    unfold createRelationShips
    rw [hget, hdot]
    rfl
  have hf1 : (createRelationShips fields fieldKey packageCamelCase imports modulePath).1 =
      fields ++
        [(relatedModelOf fieldKey, relRefField fieldKey packageCamelCase),
         (relatedModelOf fieldKey ++ "Id", relIdField field)] := by
    rw [hstep]
    dsimp only
    rw [Obj.set_absent _ _ _ hfresh1]
    have h2 : Obj.get (fields ++
        [(relatedModelOf fieldKey, relRefField fieldKey packageCamelCase)])
        (relatedModelOf fieldKey ++ "Id") = none := by
      rw [Obj.get_append, hfresh2]
      simp [Obj.get, hneRid]
    rw [Obj.set_absent _ _ _ h2, List.append_assoc]
    rfl
  have hout : (updateField (createRelationShips fields fieldKey packageCamelCase imports
      modulePath).1 field fieldKey pm) =
      (Obj.erase fields fieldKey ++
        [(relatedModelOf fieldKey, relRefField fieldKey packageCamelCase),
         (relatedModelOf fieldKey ++ "Id", relIdField field)],
       some fieldKey) := by
    unfold updateField
    rw [hdot]
    simp only [Bool.not_true, Bool.false_eq_true, if_false]
    rw [hf1, Obj.erase_append]
    have herasePair : Obj.erase
        [(relatedModelOf fieldKey, relRefField fieldKey packageCamelCase),
         (relatedModelOf fieldKey ++ "Id", relIdField field)] fieldKey =
        [(relatedModelOf fieldKey, relRefField fieldKey packageCamelCase),
         (relatedModelOf fieldKey ++ "Id", relIdField field)] := by
      simp [Obj.erase, hne1, hne2]
    rw [herasePair]
  refine ⟨by rw [hout], ?_, ?_, ?_, by rw [hstep], by rw [hout]⟩
  · rw [hout]
    dsimp only
    rw [Obj.get_append, Obj.get_erase_self]
    simp [Obj.get, hne1, hne2]
  · rw [hout]
    dsimp only
    rw [Obj.keys_append, Obj.keys_erase]
    rfl
  · intro k hk1 hk2 hk3
    rw [hout]
    dsimp only
    rw [Obj.get_append, Obj.get_erase_ne _ _ _ hk1]
    cases hgk : Obj.get fields k with
    | none =>
        have hk2' : ¬relatedModelOf fieldKey = k := fun h => hk2 h.symm
        have hk3' : ¬relatedModelOf fieldKey ++ "Id" = k := fun h => hk3 h.symm
        simp [Obj.get, hk2', hk3']
    | some v => rfl

/-- Witness for C6 at the cross-package field key `users.User` of
`exRelFields` in package `shop`: the output field list and the recorded
parent value, concretely. -/
theorem c6_relationship_expansion_witness :
    (updateField (createRelationShips exRelFields "users.User" "shop" [] "mod").1
        { Minimum := some 3 } "users.User" none).1 =
      Obj.erase exRelFields "users.User" ++
        [(relatedModelOf "users.User", relRefField "users.User" "shop"),
         (relatedModelOf "users.User" ++ "Id", relIdField { Minimum := some 3 })] :=
  (c6_relationship_expansion exRelFields { Minimum := some 3 } "users.User" "shop" "mod"
    [] none rfl (by decide) rfl rfl (by decide) (by decide)).1

/-- A `map` with conditional `push` is a filter. -/
theorem foldl_push_filter {α : Type} (p : α → Bool) :
    ∀ (l : List α) (acc : List α),
      l.foldl (fun a m => if p m then a ++ [m] else a) acc = acc ++ l.filter p := by
  intro l
  induction l with
  | nil => simp
  | cons x rest ih =>
      intro acc
      by_cases hx : p x
      · simp [hx, ih, List.filter_cons]
      · simp [hx, ih, List.filter_cons]

/-- A fold whose step only ever appends produces an extension of its seed. -/
theorem foldl_extends {α β : Type} (f : List β → α → List β)
    (hf : ∀ acc x, ∃ s, f acc x = acc ++ s) :
    ∀ (l : List α) (acc : List β), ∃ s, l.foldl f acc = acc ++ s := by
  intro l
  induction l with
  | nil => exact fun acc => ⟨[], by simp⟩
  | cons x rest ih =>
      intro acc
      obtain ⟨s1, hs1⟩ := hf acc x
      obtain ⟨s2, hs2⟩ := ih (f acc x)
      rw [hs1] at hs2
      exact ⟨s1 ++ s2, by rw [List.foldl_cons, hs1, hs2, List.append_assoc]⟩

/-- A fold whose step preserves duplicate-freeness preserves it overall. -/
theorem foldl_step_nodup {α β : Type} (f : List β → α → List β)
    (hf : ∀ acc x, acc.Nodup → (f acc x).Nodup) :
    ∀ (l : List α) (acc : List β), acc.Nodup → (l.foldl f acc).Nodup := by
  intro l
  induction l with
  | nil => exact fun acc h => h
  | cons x rest ih => exact fun acc h => ih (f acc x) (hf acc x h)

theorem nodup_append_singleton {α : Type} [DecidableEq α] (l : List α) (a : α)
    (hl : l.Nodup) (ha : a ∉ l) : (l ++ [a]).Nodup := by
  simp [List.nodup_append, hl, ha]

theorem hierarchyPass_nodup (l : List String) (t : Obj (List String))
    (acc : List String) (h : acc.Nodup) : (hierarchyPass l t acc).Nodup := by
  unfold hierarchyPass
  refine foldl_step_nodup _ ?_ l acc h
  intro acc x hacc
  dsimp only
  split
  · split
    · split
      · rename_i hnotin
        refine nodup_append_singleton acc x hacc ?_
        intro hmem
        rw [Bool.not_eq_true'] at hnotin
        simp [hmem] at hnotin
      · exact hacc
    · exact hacc
  · exact hacc

theorem hierarchyPass_extends (l : List String) (t : Obj (List String))
    (acc : List String) : ∃ s, hierarchyPass l t acc = acc ++ s := by
  unfold hierarchyPass
  refine foldl_extends _ ?_ l acc
  intro acc x
  dsimp only
  split
  · split
    · split
      · exact ⟨[x], rfl⟩
      · exact ⟨[], by simp⟩
    · exact ⟨[], by simp⟩
  · exact ⟨[], by simp⟩

/-- C9 (amended): for every DUPLICATE-FREE input list of model names and
every parent→children table, `sortModelsByHierarchy` seeds its output with
exactly the models that appear in no recorded child list (in input order, as
a prefix — so they precede anything the bounded passes phase or the final
catch-all appends), and no model name occurs more than once in the output. -/
theorem c9_hierarchy_sort (l : List String) (t : Obj (List String)) (hnd : l.Nodup) :
    (∃ rest, sortModelsByHierarchy l t = seedParents l t ++ rest) ∧
    (sortModelsByHierarchy l t).Nodup ∧
    (∀ m, m ∈ seedParents l t ↔ m ∈ l ∧ isChildModel t m = false) := by
  have hseed : seedParents l t = l.filter (fun m => !(isChildModel t m)) := by
    unfold seedParents
    simpa using foldl_push_filter (fun m => !(isChildModel t m)) l []
  have hseedNodup : (seedParents l t).Nodup := by
    rw [hseed]
    exact hnd.filter _
  refine ⟨?_, ?_, ?_⟩
  · unfold sortModelsByHierarchy
    dsimp only
    obtain ⟨s1, hs1⟩ := foldl_extends (fun (acc : List String) (_ : ℕ) => hierarchyPass l t acc)
      (fun acc _ => hierarchyPass_extends l t acc) (List.range 6) (seedParents l t)
    obtain ⟨s2, hs2⟩ := foldl_extends
      (fun (acc : List String) (model : String) =>
        if !(acc.contains model) then acc ++ [model] else acc)
      (fun acc x => by
        dsimp only
        split
        · exact ⟨[x], rfl⟩
        · exact ⟨[], by simp⟩) l
      ((List.range 6).foldl (fun acc _ => hierarchyPass l t acc) (seedParents l t))
    rw [hs1] at hs2
    refine ⟨s1 ++ s2, ?_⟩
    rw [hs1, hs2, List.append_assoc]
  · unfold sortModelsByHierarchy
    refine foldl_step_nodup _ ?_ l _ ?_
    · intro acc x hacc
      dsimp only
      split
      · rename_i hnotin
        refine nodup_append_singleton acc x hacc ?_
        intro hmem
        rw [Bool.not_eq_true'] at hnotin
        simp [hmem] at hnotin
      · exact hacc
    · exact foldl_step_nodup _ (fun acc _ hacc => hierarchyPass_nodup l t acc hacc)
        (List.range 6) (seedParents l t) hseedNodup
  · intro m
    rw [hseed]
    simp [List.mem_filter]

/-- C9 counterexample: on the (duplicated) input list `['A', 'A']` with an
empty parent table the seed phase pushes `A` twice — the output of
`sortModelsByHierarchy` contains a model name more than once, refuting the
claim as stated for arbitrary input lists. -/
theorem c9_counterexample_duplicate_input :
    sortModelsByHierarchy ["A", "A"] ([] : Obj (List String)) = ["A", "A"] ∧
    ¬ (sortModelsByHierarchy ["A", "A"] ([] : Obj (List String))).Nodup := by
  constructor
  · rfl
  · decide

/-- Witness for C9 (amended) on a duplicate-free two-model input. -/
theorem c9_hierarchy_sort_witness :
    (sortModelsByHierarchy ["B", "A"] ([] : Obj (List String))).Nodup :=
  (c9_hierarchy_sort ["B", "A"] [] (by decide)).2.1

namespace Obj

theorem mem_keys_set {V : Type} (o : Obj V) (k k' : String) (v : V)
    (h : k' ∈ keys (set o k v)) : k' ∈ keys o ∨ k' = k := by
  rw [keys_set] at h
  by_cases hm : k ∈ keys o
  · rw [if_pos hm] at h
    exact Or.inl h
  · rw [if_neg hm] at h
    rcases List.mem_append.mp h with h1 | h2
    · exact Or.inl h1
    · simp at h2
      exact Or.inr h2

end Obj

/-- Every key that `buildApiData` adds to the accumulating `apiData` is one
of the four lower-cased action names. -/
theorem buildApiData_keys :
    ∀ (entries : List (String × Cell)) (api0 a : Obj String),
      buildApiData entries api0 = .ok a →
      ∀ k ∈ Obj.keys a, k ∈ Obj.keys api0 ∨ k ∈ routeActions := by
  intro entries
  induction entries with
  | nil =>
      intro api0 a h k hk
      simp only [buildApiData, Except.ok.injEq] at h
      subst h
      exact Or.inl hk
  | cons q rest ih =>
      intro api0 a h k hk
      obtain ⟨qk, qv⟩ := q
      by_cases hact : isActionKey qk = true
      · cases qv with
        | str s =>
            by_cases hperm : isPermValue s = true
            · simp only [buildApiData, hact, hperm, if_pos, ite_true] at h
              rcases ih _ a h k hk with hin | hin
              · rcases Obj.mem_keys_set api0 (strToLower qk) k (strToLower s) hin with h1 | h1
                · exact Or.inl h1
                · subst h1
                  refine Or.inr ?_
                  have := hact
                  unfold isActionKey at this
                  simp only [routeActions]
                  simpa using this
              · exact Or.inr hin
            · simp only [buildApiData, hact, hperm, Bool.false_eq_true, ite_true, ite_false] at h
              exact ih _ a h k hk
        | num qq => simp [buildApiData, hact] at h
        | bool qb => simp [buildApiData, hact] at h
      · simp only [buildApiData, hact, Bool.false_eq_true, ite_false] at h
        exact ih _ a h k hk

/-- The `api` key set of a segregated field is contained in the four action
names. -/
theorem segregateField_apiKeys_sub (props : Obj Cell) (out : Obj PVal)
    (h : segregateField props = .ok out) :
    ∀ k ∈ fieldApiKeys out, k ∈ routeActions := by
  intro k hk
  unfold segregateField at h
  cases hb : buildApiData props [] with
  | error e => rw [hb] at h; exact Except.noConfusion h
  | ok apiData =>
      rw [hb] at h
      simp only [Bind.bind, Except.bind, pure, Except.pure] at h
      by_cases hemp : apiData.isEmpty
      · rw [if_pos hemp, Except.ok.injEq] at h
        subst h
        unfold fieldApiKeys at hk
        rw [Obj.get_mapValues] at hk
        cases hg : Obj.get (props.filter (fun p => !(isApiMatched p.1 p.2))) "api" with
        | none => rw [hg] at hk; simp at hk
        | some c => rw [hg] at hk; simp at hk
      · rw [if_neg hemp, Except.ok.injEq] at h
        subst h
        unfold fieldApiKeys at hk
        rw [Obj.get_set_self] at hk
        rcases buildApiData_keys props [] apiData hb k hk with h1 | h1
        · simp [Obj.keys] at h1
        · exact h1

/-- Every field of a segregated model map comes from segregating the raw
field's property map. -/
theorem segregateModelFields_get :
    ∀ (l : List (String × Obj Cell)) (M : Obj (Obj PVal)),
      segregateModelFields l = .ok M →
      ∀ f out, Obj.get M f = some out →
        ∃ props, Obj.get l f = some props ∧ segregateField props = .ok out := by
  intro l
  induction l with
  | nil =>
      intro M h f out hout
      simp only [segregateModelFields, Except.ok.injEq] at h
      subst h
      simp [Obj.get] at hout
  | cons q rest ih =>
      intro M h f out hout
      obtain ⟨qk, qprops⟩ := q
      cases hq : segregateField qprops with
      | error e => simp [segregateModelFields, hq, Bind.bind, Except.bind] at h
      | ok qout =>
          cases hrest : segregateModelFields rest with
          | error e => simp [segregateModelFields, hq, hrest, Bind.bind, Except.bind] at h
          | ok r =>
              simp only [segregateModelFields, hq, hrest, Bind.bind, Except.bind,
                Except.ok.injEq] at h
              subst h
              by_cases hk : qk = f
              · subst hk
                simp only [Obj.get, if_pos] at hout ⊢
                rw [Option.some.injEq] at hout
                exact ⟨qprops, rfl, hout ▸ hq⟩
              · simp only [Obj.get, hk, ite_false] at hout ⊢
                exact ih r hrest f out hout

/-- Every model of a segregated package comes from segregating the raw
model's field map. -/
theorem segregatePackage_get :
    ∀ (l : List (String × Obj (Obj Cell))) (P : Obj (Obj (Obj PVal))),
      segregatePackage l = .ok P →
      ∀ mn out, Obj.get P mn = some out →
        ∃ m, Obj.get l mn = some m ∧ segregateModelFields m = .ok out := by
  intro l
  induction l with
  | nil =>
      intro P h mn out hout
      simp only [segregatePackage, Except.ok.injEq] at h
      subst h
      simp [Obj.get] at hout
  | cons q rest ih =>
      intro P h mn out hout
      obtain ⟨qk, qm⟩ := q
      cases hq : segregateModelFields qm with
      | error e => simp [segregatePackage, hq, Bind.bind, Except.bind] at h
      | ok qout =>
          cases hrest : segregatePackage rest with
          | error e => simp [segregatePackage, hq, hrest, Bind.bind, Except.bind] at h
          | ok r =>
              simp only [segregatePackage, hq, hrest, Bind.bind, Except.bind,
                Except.ok.injEq] at h
              subst h
              by_cases hk : qk = mn
              · subst hk
                simp only [Obj.get, if_pos] at hout ⊢
                rw [Option.some.injEq] at hout
                exact ⟨qm, rfl, hout ▸ hq⟩
              · simp only [Obj.get, hk, ite_false] at hout ⊢
                exact ih r hrest mn out hout

/-- Every package of the segregated schema comes from segregating the raw
package. -/
theorem segregateAPISections_get :
    ∀ (l : List (String × Obj (Obj (Obj Cell)))) (S : Obj (Obj (Obj (Obj PVal)))),
      segregateAPISections l = .ok S →
      ∀ pn out, Obj.get S pn = some out →
        ∃ p, Obj.get l pn = some p ∧ segregatePackage p = .ok out := by
  intro l
  induction l with
  | nil =>
      intro S h pn out hout
      simp only [segregateAPISections, Except.ok.injEq] at h
      subst h
      simp [Obj.get] at hout
  | cons q rest ih =>
      intro S h pn out hout
      obtain ⟨qk, qp⟩ := q
      cases hq : segregatePackage qp with
      | error e => simp [segregateAPISections, hq, Bind.bind, Except.bind] at h
      | ok qout =>
          cases hrest : segregateAPISections rest with
          | error e => simp [segregateAPISections, hq, hrest, Bind.bind, Except.bind] at h
          | ok r =>
              simp only [segregateAPISections, hq, hrest, Bind.bind, Except.bind,
                Except.ok.injEq] at h
              subst h
              by_cases hk : qk = pn
              · subst hk
                simp only [Obj.get, if_pos] at hout ⊢
                rw [Option.some.injEq] at hout
                exact ⟨qp, rfl, hout ▸ hq⟩
              · simp only [Obj.get, hk, ite_false] at hout ⊢
                exact ih r hrest pn out hout

/-- Gutting a field's property map preserves its `api` entry. -/
theorem gutProps_get_api (props : Obj PVal) :
    Obj.get (gutProps props) "api" = Obj.get props "api" := by
  induction props with
  | nil => simp [gutProps, Obj.get]
  | cons p rest ih =>
      by_cases hp : p.1 = "api"
      · simp [gutProps, List.filter_cons, hp, Obj.get]
      · simp [gutProps, List.filter_cons, hp, Obj.get] at ih ⊢
        exact ih

/-- A gutted property map is empty exactly when the field had no `api`
property. -/
theorem gutProps_eq_nil_iff (props : Obj PVal) :
    gutProps props = [] ↔ Obj.get props "api" = none := by
  induction props with
  | nil => simp [gutProps, Obj.get]
  | cons p rest ih =>
      by_cases hp : p.1 = "api"
      · simp [gutProps, List.filter_cons, hp, Obj.get]
      · simp [gutProps, List.filter_cons, hp, Obj.get, hp] at ih ⊢
        exact ih

/-- Keys of a gutted model are keys of the model. -/
theorem mem_keys_gutModel (m : Obj (Obj PVal)) (f : String)
    (h : f ∈ Obj.keys (gutModel m)) : f ∈ Obj.keys m := by
  unfold gutModel at h
  simp only [Obj.keys] at h ⊢
  obtain ⟨p, hp, hf⟩ := List.mem_map.mp h
  have hp2 := List.mem_of_mem_filter hp
  obtain ⟨q, hq, hqeq⟩ := List.mem_map.mp hp2
  have hq1 : p.1 = q.1 := by rw [← hqeq]
  rw [← hf, hq1]
  exact List.mem_map_of_mem Prod.fst hq

/-- Lookup in the gutted model (for a duplicate-free field map): the gutted
properties when non-empty, nothing when the field lost all its properties. -/
theorem gutModel_get (m : Obj (Obj PVal)) (hnd : (Obj.keys m).Nodup) (f : String) :
    Obj.get (gutModel m) f =
      (Obj.get m f).bind
        (fun props => if (gutProps props).isEmpty then none else some (gutProps props)) := by
  induction m with
  | nil => simp [gutModel, Obj.get]
  | cons p rest ih =>
      obtain ⟨pk, pprops⟩ := p
      simp only [Obj.keys, List.map_cons, List.nodup_cons] at hnd
      have ihr := ih hnd.2
      by_cases hemp : (gutProps pprops).isEmpty
      · have hdrop : gutModel ((pk, pprops) :: rest) = gutModel rest := by
          unfold gutModel
          simp [List.filter_cons, hemp]
        rw [hdrop]
        by_cases hf : pk = f
        · subst hf
          have hnone : Obj.get (gutModel rest) pk = none := by
            rw [Obj.get_eq_none_iff]
            intro hmem
            exact hnd.1 (mem_keys_gutModel rest pk hmem)
          rw [hnone]
          have h0 : gutProps pprops = [] := List.isEmpty_iff.mp hemp
          simp [Obj.get, h0]
        · rw [ihr]
          simp [Obj.get, hf]
      · have hkeep : gutModel ((pk, pprops) :: rest) =
            (pk, gutProps pprops) :: gutModel rest := by
          unfold gutModel
          simp [List.filter_cons, hemp]
        rw [hkeep]
        by_cases hf : pk = f
        · subst hf
          have h0 : ¬gutProps pprops = [] := by
            simpa [List.isEmpty_iff] using hemp
          simp [Obj.get, h0]
        · simp only [Obj.get, hf, ite_false]
          rw [ihr]

/-- Gutting does not change which actions a field's `api` object lists. -/
theorem fieldApiKeysAt_gutModel (m : Obj (Obj PVal)) (hnd : (Obj.keys m).Nodup)
    (f : String) : fieldApiKeysAt (gutModel m) f = fieldApiKeysAt m f := by
  unfold fieldApiKeysAt
  rw [gutModel_get m hnd f]
  cases hg : Obj.get m f with
  | none => rfl
  | some props =>
      by_cases hemp : (gutProps props).isEmpty
      · have h0 : Obj.get props "api" = none :=
          (gutProps_eq_nil_iff props).mp (List.isEmpty_iff.mp hemp)
        simp [Option.bind, hemp, fieldApiKeys, h0]
      · simp only [Option.some_bind, if_neg hemp]
        unfold fieldApiKeys
        rw [gutProps_get_api]

/-- A field name is listed under an action exactly when its `api` object
lists that action. -/
theorem mem_actionFieldList (m : Obj (Obj PVal)) (hnd : (Obj.keys m).Nodup)
    (f a : String) : f ∈ actionFieldList m a ↔ a ∈ fieldApiKeysAt m f := by
  unfold actionFieldList
  rw [List.mem_filter]
  constructor
  · rintro ⟨hmem, hcont⟩
    rw [fieldApiKeysAt_gutModel m hnd f] at hcont
    simpa using hcont
  · intro ha
    have hne : fieldApiKeysAt m f ≠ [] := by
      intro h0
      rw [h0] at ha
      simp at ha
    have hprops : ∃ props, Obj.get m f = some props ∧ fieldApiKeys props ≠ [] := by
      unfold fieldApiKeysAt at hne
      cases hg : Obj.get m f with
      | none => rw [hg] at hne; simp at hne
      | some props => rw [hg] at hne; exact ⟨props, rfl, hne⟩
    obtain ⟨props, hg, hapine⟩ := hprops
    have hapi : Obj.get props "api" ≠ none := by
      intro h0
      unfold fieldApiKeys at hapine
      rw [h0] at hapine
      simp at hapine
    have hgutne : ¬(gutProps props).isEmpty := by
      rw [List.isEmpty_iff]
      intro h0
      exact hapi ((gutProps_eq_nil_iff props).mp h0)
    have hgut : Obj.get (gutModel m) f = some (gutProps props) := by
      rw [gutModel_get m hnd f, hg]
      have h1 : ¬gutProps props = [] := by
        simpa [List.isEmpty_iff] using hgutne
      simp [h1]
    refine ⟨?_, ?_⟩
    · by_contra h0
      rw [← Obj.get_eq_none_iff] at h0
      rw [hgut] at h0
      exact Option.noConfusion h0
    · rw [fieldApiKeysAt_gutModel m hnd f]
      simpa using ha

/-- Lookup in the reorganized route entry of one model. -/
theorem routesFromModel_get (m : Obj (Obj PVal)) (a : String) :
    Obj.get (routesFromModel m) a =
      if a ∈ routeActions ∧ ¬(actionFieldList m a).isEmpty
      then some (actionFieldList m a) else none := by
  have haux : ∀ (as : List String), as.Nodup →
      Obj.get (as.filterMap (fun action =>
        if (actionFieldList m action).isEmpty then none
        else some (action, actionFieldList m action))) a =
      if a ∈ as ∧ ¬(actionFieldList m a).isEmpty
      then some (actionFieldList m a) else none := by
    intro as
    induction as with
    | nil =>
        intro _
        simp [Obj.get]
    | cons b rest ih =>
        intro hnd
        rw [List.nodup_cons] at hnd
        rw [List.filterMap_cons]
        by_cases hb : (actionFieldList m b).isEmpty = true
        · rw [if_pos hb]
          dsimp only
          rw [ih hnd.2]
          by_cases hab : a = b
          · subst hab
            simp [hnd.1, hb]
          · simp [hab]
        · rw [if_neg hb]
          dsimp only
          by_cases hab : b = a
          · subst hab
            simp [Obj.get, hb]
          · simp only [Obj.get, hab, ite_false]
            rw [ih hnd.2]
            have hab2 : ¬a = b := fun h => hab h.symm
            simp [hab2]
  exact haux routeActions (by decide)

/-- C8: for every package, model and field of the segregated schema, the
route schema is the exact partition induced by the compiled `api` objects:
(i) the route entry of the model in `processRoutesDataFromModelsData`'s
output is `routesFromModel` of its segregated field map; (ii) a field name
appears in the list under an action exactly when that action is a key of the
field's `api` object (so a field with no `api` object appears under no
action); (iii) every listed field name is one of the model's segregated
field names; (iv) an action key is absent from the model's route entry
exactly when its field list would be empty. -/
theorem c8_route_projection_partition
    (raw : Obj (Obj (Obj (Obj Cell)))) (M : Obj (Obj (Obj (Obj PVal))))
    (hseg : segregateAPISections raw = .ok M)
    (pkg model : String) (pkgData : Obj (Obj (Obj PVal))) (fMap : Obj (Obj PVal))
    (h1 : Obj.get M pkg = some pkgData) (h2 : Obj.get pkgData model = some fMap)
    (hnd : (Obj.keys fMap).Nodup) :
    ((Obj.get (processRoutesDataFromModelsData M) pkg).bind (fun p => Obj.get p model)
        = some (routesFromModel fMap)) ∧
    (∀ f a, (∃ fl, Obj.get (routesFromModel fMap) a = some fl ∧ f ∈ fl) ↔
        a ∈ fieldApiKeysAt fMap f) ∧
    (∀ f a fl, Obj.get (routesFromModel fMap) a = some fl → f ∈ fl →
        f ∈ Obj.keys fMap) ∧
    (∀ a, a ∈ routeActions →
        (Obj.get (routesFromModel fMap) a = none ↔ actionFieldList fMap a = [])) := by
  have hsub : ∀ f a, a ∈ fieldApiKeysAt fMap f → a ∈ routeActions := by
    intro f a ha
    unfold fieldApiKeysAt at ha
    cases hg : Obj.get fMap f with
    | none => rw [hg] at ha; simp at ha
    | some props =>
        rw [hg] at ha
        obtain ⟨rawPkg, _, hsp⟩ := segregateAPISections_get raw M hseg pkg pkgData h1
        obtain ⟨rawModel, _, hsm⟩ := segregatePackage_get rawPkg pkgData hsp model fMap h2
        obtain ⟨props0, _, hsf⟩ := segregateModelFields_get rawModel fMap hsm f props hg
        exact segregateField_apiKeys_sub props0 props hsf a ha
  refine ⟨?_, ?_, ?_, ?_⟩
  · unfold processRoutesDataFromModelsData
    rw [Obj.get_mapValues M
      (fun pd => pd.map (fun model => (model.1, routesFromModel model.2))) pkg, h1]
    simp only [Option.map_some', Option.some_bind]
    rw [Obj.get_mapValues pkgData (fun mm => routesFromModel mm) model, h2]
    rfl
  · intro f a
    constructor
    · rintro ⟨fl, hfl, hmem⟩
      rw [routesFromModel_get] at hfl
      by_cases hc : a ∈ routeActions ∧ ¬(actionFieldList fMap a).isEmpty
      · rw [if_pos hc, Option.some.injEq] at hfl
        subst hfl
        exact (mem_actionFieldList fMap hnd f a).mp hmem
      · rw [if_neg hc] at hfl
        exact Option.noConfusion hfl
    · intro ha
      have haction := hsub f a ha
      have hf : f ∈ actionFieldList fMap a := (mem_actionFieldList fMap hnd f a).mpr ha
      have hnemp : ¬(actionFieldList fMap a).isEmpty := by
        rw [List.isEmpty_iff]
        intro h0
        rw [h0] at hf
        simp at hf
      refine ⟨actionFieldList fMap a, ?_, hf⟩
      rw [routesFromModel_get, if_pos ⟨haction, hnemp⟩]
  · intro f a fl hfl hmem
    rw [routesFromModel_get] at hfl
    by_cases hc : a ∈ routeActions ∧ ¬(actionFieldList fMap a).isEmpty
    · rw [if_pos hc, Option.some.injEq] at hfl
      subst hfl
      have ha := (mem_actionFieldList fMap hnd f a).mp hmem
      have hne : fieldApiKeysAt fMap f ≠ [] := by
        intro h0
        rw [h0] at ha
        simp at ha
      unfold fieldApiKeysAt at hne
      cases hg : Obj.get fMap f with
      | none => rw [hg] at hne; simp at hne
      | some props =>
          by_contra h0
          rw [← Obj.get_eq_none_iff] at h0
          rw [h0] at hg
          exact Option.noConfusion hg
    · rw [if_neg hc] at hfl
      exact Option.noConfusion hfl
  · intro a haction
    rw [routesFromModel_get]
    constructor
    · intro h0
      by_cases hc : a ∈ routeActions ∧ ¬(actionFieldList fMap a).isEmpty
      · rw [if_pos hc] at h0
        exact Option.noConfusion h0
      · rw [Classical.not_and_iff_or_not_not] at hc
        rcases hc with hc | hc
        · exact absurd haction hc
        · rw [Decidable.not_not] at hc
          exact List.isEmpty_iff.mp hc
    · intro h0
      rw [if_neg]
      intro hc
      rw [List.isEmpty_iff] at hc
      exact hc.2 h0

/-- Witness for C8 at the segregation of `exRawSchema`: the route entry of
`users.User` in the full reorganized output is exactly
`routesFromModel exSegFields`. -/
theorem c8_route_projection_partition_witness :
    (Obj.get (processRoutesDataFromModelsData exSegSchema) "users").bind
        (fun p => Obj.get p "User") = some (routesFromModel exSegFields) :=
  (c8_route_projection_partition exRawSchema exSegSchema rfl "users" "User"
    [("User", exSegFields)] exSegFields rfl rfl (by decide)).1
